/-
  Verification of the OpenRamp matching and search subsystem.

  The repository ships a React frontend (embedded below where a claim is
  decided by frontend code: the profile panel's tag validation and the
  browser-storage wrapper) and documents a Python backend core
  (MetricsStore, ProfileExtractor, MatchScorer, SearchOrchestrator) whose
  code is not part of the checked-in sources; for those components the
  definitions below are modelled from the specification, as marked in
  their doc comments.

  Numeric scores are modelled over ℚ.  The source computes over IEEE-754
  doubles; the claims under study are exact algebraic identities and
  interval bounds, which are stated here over exact rationals.
-/
import Mathlib

namespace OpenRamp

/-! ## Data model (modelled from the spec, section 3) -/

/-- Modelled from the spec: the six enumerated contribution types. -/
inductive Pref where
  | bug_fix | feature | docs | community | review | test
deriving DecidableEq

/-- Modelled from the spec: the experience enum. -/
inductive Exp where
  | beginner | intermediate | advanced
deriving DecidableEq

/-- Modelled from the spec: `UserProfile` — skills are a set of normalized
tokens, preferences a set of contribution types, experience optional. -/
structure UserProfile where
  skills : Finset String
  preferences : Finset Pref
  experience : Option Exp
deriving DecidableEq

/-- Modelled from the spec: `RepoMetrics`, the uniform per-repository record
(`openrank_series` is the chronological (period, value) sequence). -/
structure RepoMetrics where
  repo_id : String
  name : String
  description : String
  languages : List String
  keywords : List String
  active_days_90 : Nat
  daily_peak_activity : ℚ
  issues_new_90 : Nat
  openrank_series : List (String × ℚ)
deriving DecidableEq

/-- Modelled from the spec: invariant on `RepoMetrics` — numeric fields
are nonnegative. -/
def RepoMetrics.Valid (m : RepoMetrics) : Prop :=
  0 ≤ m.daily_peak_activity ∧ ∀ e ∈ m.openrank_series, 0 ≤ e.2

/-! ## MetricsStore score computation (modelled from the spec, section 4.1,
and the data-service README's 指标计算说明 section) -/

/-- Modelled from the spec: `active_score = min(1, active_days_90 *
daily_peak_activity / 100)`. -/
def active_score (m : RepoMetrics) : ℚ :=
  min 1 ((m.active_days_90 : ℚ) * m.daily_peak_activity / 100)

/-- Modelled from the spec: the value of the chronologically last entry of
`openrank_series`; an empty series yields 0. -/
def latest_openrank (m : RepoMetrics) : ℚ :=
  (m.openrank_series.getLast?.map Prod.snd).getD 0

/-- Modelled from the spec: `influence_score = min(1, latest_openrank / 50)`. -/
def influence_score (m : RepoMetrics) : ℚ :=
  min 1 (latest_openrank m / 50)

/-- Modelled from the spec: `demand_score = min(1, issues_new_90 / 50)`. -/
def demand_score (m : RepoMetrics) : ℚ :=
  min 1 ((m.issues_new_90 : ℚ) / 50)

/-- Modelled from the spec: the composite weighting
`0.5*active + 0.3*influence + 0.2*demand` over a metrics triple. -/
def composite_of (a i d : ℚ) : ℚ :=
  0.5 * a + 0.3 * i + 0.2 * d

/-- Modelled from the spec: `composite_score` of a repository. -/
def composite_score (m : RepoMetrics) : ℚ :=
  composite_of (active_score m) (influence_score m) (demand_score m)

/-! ## MatchScorer (modelled from the spec, section 4.3) -/

/-- Character-wise ASCII case folding (the model of `.toLowerCase()` on the
ASCII tokens the matcher works with). -/
def toLowerStr (s : String) : String :=
  ⟨s.data.map Char.toLower⟩

/-- Modelled from the spec: languages are normalized (case-folded) before
being pooled with the keywords. -/
def normalizedLanguages (m : RepoMetrics) : List String :=
  m.languages.map toLowerStr

/-- Modelled from the spec: the token pool a profile's skills are matched
against — `repo.keywords ∪ normalized(repo.languages)`. -/
def skillPool (m : RepoMetrics) : Finset String :=
  m.keywords.toFinset ∪ (normalizedLanguages m).toFinset

/-- Modelled from the spec: the skill dimension
`|skills ∩ pool| / max(1, |skills|)`, clamped to [0,1]. -/
def skill_dim (p : UserProfile) (m : RepoMetrics) : ℚ :=
  min 1 (max 0 (((p.skills ∩ skillPool m).card : ℚ) / ((max 1 p.skills.card : Nat) : ℚ)))

/-- Modelled from the spec: the configurable match weights (skill /
activity / demand), exposed as configuration rather than hard-coded. -/
structure Weights where
  w_skill : ℚ
  w_activity : ℚ
  w_demand : ℚ
deriving DecidableEq

/-- Modelled from the spec: weights are validated at configuration time —
nonnegative and summing to 1. -/
def Weights.Valid (w : Weights) : Prop :=
  0 ≤ w.w_skill ∧ 0 ≤ w.w_activity ∧ 0 ≤ w.w_demand ∧
    w.w_skill + w.w_activity + w.w_demand = 1

/-- Modelled from the spec: the documented skill-dominant default weights. -/
def defaultWeights : Weights :=
  { w_skill := 0.5, w_activity := 0.3, w_demand := 0.2 }

/-- Modelled from the spec: `MatchResult`, the per-(user, repo) breakdown. -/
structure MatchResult where
  skill : ℚ
  activity : ℚ
  demand : ℚ
  match_score : ℚ
deriving DecidableEq

/-- Modelled from the spec: `MatchScorer.calculate` — pure, deterministic;
`activity` and `demand` echo the repository's intrinsic scores and
`match_score` is the weighted combination. -/
def calculate (w : Weights) (p : UserProfile) (m : RepoMetrics) : MatchResult :=
  { skill := skill_dim p m
    activity := active_score m
    demand := demand_score m
    match_score := w.w_skill * skill_dim p m + w.w_activity * active_score m
      + w.w_demand * demand_score m }

/-! ## Concrete inputs used by the worked examples -/

/-- The spec's first worked scenario: `active_days_90=30`,
`daily_peak_activity=10`, `issues_new_90=10`, latest openrank 25. -/
def exampleMetrics : RepoMetrics :=
  { repo_id := "x/y", name := "y", description := ""
    languages := [], keywords := []
    active_days_90 := 30, daily_peak_activity := 10, issues_new_90 := 10
    openrank_series := [("2024-01", 25)] }

/-- The spec's second worked scenario: a repo with keywords
{python, fastapi} and languages ["Python"]. -/
def exampleRepo : RepoMetrics :=
  { repo_id := "a/b", name := "b", description := ""
    languages := ["Python"], keywords := ["python", "fastapi"]
    active_days_90 := 0, daily_peak_activity := 0, issues_new_90 := 0
    openrank_series := [] }

/-- The spec's second worked scenario: a profile with skills
{python, django}. -/
def exampleProfile : UserProfile :=
  { skills := {"python", "django"}, preferences := ∅, experience := none }

/-- A profile with no skills, for the divide-by-zero edge case. -/
def emptyProfile : UserProfile :=
  { skills := ∅, preferences := ∅, experience := none }

end OpenRamp

namespace OpenRamp

/-! ## Helper lemmas about the score computations -/

theorem mem_of_getLast?_eq_some {α : Type _} {l : List α} {a : α}
    (h : l.getLast? = some a) : a ∈ l := by
  have hmem : a ∈ l.getLast? := by simp [h]
  obtain ⟨hne, rfl⟩ := List.mem_getLast?_eq_getLast hmem
  exact List.getLast_mem hne

theorem active_score_nonneg (m : RepoMetrics) (h : 0 ≤ m.daily_peak_activity) :
    0 ≤ active_score m := by
  refine le_min zero_le_one ?_
  have : (0 : ℚ) ≤ (m.active_days_90 : ℚ) := by positivity
  positivity

theorem active_score_le_one (m : RepoMetrics) : active_score m ≤ 1 :=
  min_le_left _ _

theorem latest_openrank_nonneg (m : RepoMetrics)
    (h : ∀ e ∈ m.openrank_series, 0 ≤ e.2) : 0 ≤ latest_openrank m := by
  unfold latest_openrank
  cases hl : m.openrank_series.getLast? with
  | none => simp
  | some e => simpa using h e (mem_of_getLast?_eq_some hl)

theorem influence_score_nonneg (m : RepoMetrics)
    (h : ∀ e ∈ m.openrank_series, 0 ≤ e.2) : 0 ≤ influence_score m :=
  le_min zero_le_one (by have := latest_openrank_nonneg m h; positivity)

theorem influence_score_le_one (m : RepoMetrics) : influence_score m ≤ 1 :=
  min_le_left _ _

theorem demand_score_nonneg (m : RepoMetrics) : 0 ≤ demand_score m :=
  le_min zero_le_one (by positivity)

theorem demand_score_le_one (m : RepoMetrics) : demand_score m ≤ 1 :=
  min_le_left _ _

theorem composite_of_mem_unit {a i d : ℚ} (ha : 0 ≤ a ∧ a ≤ 1)
    (hi : 0 ≤ i ∧ i ≤ 1) (hd : 0 ≤ d ∧ d ≤ 1) :
    0 ≤ composite_of a i d ∧ composite_of a i d ≤ 1 := by
  unfold composite_of
  constructor <;> nlinarith [ha.1, ha.2, hi.1, hi.2, hd.1, hd.2]

theorem skill_dim_nonneg (p : UserProfile) (m : RepoMetrics) : 0 ≤ skill_dim p m :=
  le_min zero_le_one (le_max_left _ _)

theorem skill_dim_le_one (p : UserProfile) (m : RepoMetrics) : skill_dim p m ≤ 1 :=
  min_le_left _ _

theorem skill_dim_eq_ratio (p : UserProfile) (m : RepoMetrics) :
    skill_dim p m
      = ((p.skills ∩ skillPool m).card : ℚ) / ((max 1 p.skills.card : Nat) : ℚ) := by
  have hge : (1 : Nat) ≤ max 1 p.skills.card := le_max_left _ _
  have hpos : (0 : ℚ) < ((max 1 p.skills.card : Nat) : ℚ) := by
    exact_mod_cast lt_of_lt_of_le Nat.zero_lt_one hge
  have h0 : (0 : ℚ)
      ≤ ((p.skills ∩ skillPool m).card : ℚ) / ((max 1 p.skills.card : Nat) : ℚ) :=
    div_nonneg (by positivity) hpos.le
  have h1 : ((p.skills ∩ skillPool m).card : ℚ) / ((max 1 p.skills.card : Nat) : ℚ) ≤ 1 := by
    rw [div_le_one hpos]
    exact_mod_cast le_trans (Finset.card_le_card Finset.inter_subset_left)
      (le_max_right 1 p.skills.card)
  rw [skill_dim, max_eq_right h0, min_eq_right h1]

end OpenRamp

namespace OpenRamp

/-! ## Claims about the scoring engine -/

/-- C1: the skill dimension of the match calculation equals
`|profile.skills ∩ (repo.keywords ∪ normalized(repo.languages))| /
max(1, |profile.skills|)` (the [0,1] clamp never alters this ratio); a
profile with empty skills yields `skill = 0`; and on the spec's worked
example ({python, django} against keywords {python, fastapi} and languages
["Python"]) the dimension is 1/2. -/
theorem c1_skill_dimension :
    (∀ (p : UserProfile) (m : RepoMetrics),
        skill_dim p m
          = ((p.skills ∩ skillPool m).card : ℚ) / ((max 1 p.skills.card : Nat) : ℚ)) ∧
    (∀ (p : UserProfile) (m : RepoMetrics), p.skills = ∅ → skill_dim p m = 0) ∧
    skill_dim exampleProfile exampleRepo = 0.5 := by
  refine ⟨skill_dim_eq_ratio, ?_, ?_⟩
  · intro p m h
    rw [skill_dim_eq_ratio, h]
    simp
  · rw [skill_dim_eq_ratio]
    have h1 : (exampleProfile.skills ∩ skillPool exampleRepo).card = 1 := by decide
    have h2 : exampleProfile.skills.card = 2 := by decide
    rw [h1, h2]
    norm_num

/-- C1 witness: the empty-skills case of `c1_skill_dimension` applied at a
concrete input. -/
theorem c1_skill_dimension_witness :
    emptyProfile.skills = ∅ ∧ skill_dim emptyProfile exampleRepo = 0 :=
  ⟨rfl, c1_skill_dimension.2.1 emptyProfile exampleRepo rfl⟩

/-- C2: the composite repository health score is exactly
`0.5*active + 0.3*influence + 0.2*demand` for any metrics triple, and on
the spec's worked example (`active_days_90=30`, `daily_peak_activity=10`,
`issues_new_90=10`, latest openrank 25) the scores are 1, 0.5, 0.2 and
0.69. -/
theorem c2_composite_score_formula :
    (∀ a i d : ℚ, composite_of a i d = 0.5 * a + 0.3 * i + 0.2 * d) ∧
    (∀ m : RepoMetrics,
        composite_score m
          = 0.5 * active_score m + 0.3 * influence_score m + 0.2 * demand_score m) ∧
    active_score exampleMetrics = 1 ∧ influence_score exampleMetrics = 0.5 ∧
    demand_score exampleMetrics = 0.2 ∧ composite_score exampleMetrics = 0.69 := by
  refine ⟨fun a i d => rfl, fun m => rfl, ?_, ?_, ?_, ?_⟩ <;>
    norm_num [composite_score, composite_of, active_score, influence_score,
      demand_score, latest_openrank, exampleMetrics, min_def]

/-- C7: for valid inputs every score produced by the scoring and matching
operations — `active_score`, `influence_score`, `demand_score`,
`composite_score` and the `skill`, `activity`, `demand`, `match_score`
fields of the match calculation — lies in [0, 1]. -/
theorem c7_scores_unit_interval :
    ∀ (m : RepoMetrics), m.Valid → ∀ (w : Weights), w.Valid → ∀ (p : UserProfile),
      (0 ≤ active_score m ∧ active_score m ≤ 1) ∧
      (0 ≤ influence_score m ∧ influence_score m ≤ 1) ∧
      (0 ≤ demand_score m ∧ demand_score m ≤ 1) ∧
      (0 ≤ composite_score m ∧ composite_score m ≤ 1) ∧
      (0 ≤ (calculate w p m).skill ∧ (calculate w p m).skill ≤ 1) ∧
      (0 ≤ (calculate w p m).activity ∧ (calculate w p m).activity ≤ 1) ∧
      (0 ≤ (calculate w p m).demand ∧ (calculate w p m).demand ≤ 1) ∧
      (0 ≤ (calculate w p m).match_score ∧ (calculate w p m).match_score ≤ 1) := by
  intro m hm w hw p
  obtain ⟨hpeak, hseries⟩ := hm
  obtain ⟨hws, hwa, hwd, hsum⟩ := hw
  have ha : 0 ≤ active_score m ∧ active_score m ≤ 1 :=
    ⟨active_score_nonneg m hpeak, active_score_le_one m⟩
  have hi : 0 ≤ influence_score m ∧ influence_score m ≤ 1 :=
    ⟨influence_score_nonneg m hseries, influence_score_le_one m⟩
  have hd : 0 ≤ demand_score m ∧ demand_score m ≤ 1 :=
    ⟨demand_score_nonneg m, demand_score_le_one m⟩
  have hs : 0 ≤ skill_dim p m ∧ skill_dim p m ≤ 1 :=
    ⟨skill_dim_nonneg p m, skill_dim_le_one p m⟩
  refine ⟨ha, hi, hd, composite_of_mem_unit ha hi hd, hs, ha, hd, ?_, ?_⟩
  · show 0 ≤ w.w_skill * skill_dim p m + w.w_activity * active_score m
      + w.w_demand * demand_score m
    have := mul_nonneg hws hs.1
    have := mul_nonneg hwa ha.1
    have := mul_nonneg hwd hd.1
    linarith
  · show w.w_skill * skill_dim p m + w.w_activity * active_score m
      + w.w_demand * demand_score m ≤ 1
    have h1 : w.w_skill * skill_dim p m ≤ w.w_skill * 1 :=
      mul_le_mul_of_nonneg_left hs.2 hws
    have h2 : w.w_activity * active_score m ≤ w.w_activity * 1 :=
      mul_le_mul_of_nonneg_left ha.2 hwa
    have h3 : w.w_demand * demand_score m ≤ w.w_demand * 1 :=
      mul_le_mul_of_nonneg_left hd.2 hwd
    linarith

/-- C7 witness: `c7_scores_unit_interval` applied to the spec's worked
metrics, the default weights and the worked profile. -/
theorem c7_scores_unit_interval_witness :
    exampleMetrics.Valid ∧ defaultWeights.Valid ∧
      (0 ≤ (calculate defaultWeights exampleProfile exampleMetrics).match_score ∧
        (calculate defaultWeights exampleProfile exampleMetrics).match_score ≤ 1) :=
  have hm : exampleMetrics.Valid := by
    constructor
    · norm_num [exampleMetrics]
    · intro e he
      simp only [exampleMetrics, List.mem_singleton] at he
      subst he
      norm_num
  have hw : defaultWeights.Valid := by
    refine ⟨?_, ?_, ?_, ?_⟩ <;> norm_num [defaultWeights]
  ⟨hm, hw,
    (c7_scores_unit_interval exampleMetrics hm defaultWeights hw
        exampleProfile).2.2.2.2.2.2.2⟩

end OpenRamp

namespace OpenRamp

/-! ## Frontend profile panel: skill-tag validation
(embedded from `frontend/src/components/Module2_UserSystem/ProfilePanel.tsx`) -/

namespace ProfilePanel

/-- Embedded from ProfilePanel.tsx (`cleanTag`): strip the leading run of
`[` and the trailing run of `]` (the regex `^\[+|\]+$` with the global
flag), then trim surrounding whitespace. -/
def cleanTag (tag : String) : String :=
  let noLead := tag.data.dropWhile (fun c => c = '[')
  let noTrail := (noLead.reverse.dropWhile (fun c => c = ']')).reverse
  ⟨((noTrail.dropWhile Char.isWhitespace).reverse.dropWhile Char.isWhitespace).reverse⟩

/-- Embedded from ProfilePanel.tsx: a character accepted by the validation
regex `/^[a-zA-Z0-9_]+$/`. -/
def isTagChar (c : Char) : Bool :=
  c.isAlphanum || c = '_'

/-- The validation outcome record `{ isValid, error }`. -/
structure TagValidation where
  isValid : Bool
  error : Option String
deriving DecidableEq

/-- Embedded from ProfilePanel.tsx (`validateTag`): the argument is
re-cleaned internally, then checked nonempty, against
`/^[a-zA-Z0-9_]+$/`, for length at most 20, and for membership in the
current skill list (an existing tag is rejected with an error message). -/
def validateTag (skills : List String) (tag : String) : TagValidation :=
  let c := cleanTag tag
  if c = "" then ⟨false, some "标签不能为空"⟩
  else if !(c.data.all isTagChar) then ⟨false, some "仅允许字母、数字和下划线"⟩
  else if 20 < c.length then ⟨false, some "标签长度不能超过20个字符"⟩
  else if c ∈ skills then ⟨false, some "该标签已存在"⟩
  else ⟨true, none⟩

/-- Embedded from ProfilePanel.tsx (`handleAdd`): clean the typed tag
once, validate the cleaned form, and on success append the once-cleaned
form; on failure the skill list is left unchanged (`none`) and the error
is surfaced. -/
def handleAdd (skills : List String) (newTag : String) : Option (List String) :=
  let c := cleanTag newTag
  if (validateTag skills c).isValid then some (skills ++ [c]) else none

/-- Embedded from ProfilePanel.tsx (`handleSave`): the in-place edit path;
same clean/validate pattern, replacing the tag at the edited index. -/
def handleSave (skills : List String) (index : Nat) (editValue : String) :
    Option (List String) :=
  let c := cleanTag editValue
  if (validateTag skills c).isValid then some (skills.set index c) else none

/-- The spec's skill-token invariant (pattern `[a-z0-9_]+`, length ≤ 20),
stated from the spec's words for comparison against the embedded code. -/
def isSpecSkillToken (s : String) : Bool :=
  !s.isEmpty && s.data.all (fun c => ('a' ≤ c && c ≤ 'z') || c.isDigit || c = '_')
    && s.length ≤ 20

theorem validateTag_isValid_spec {skills : List String} {t : String}
    (h : (validateTag skills t).isValid = true) :
    cleanTag t ≠ "" ∧ (cleanTag t).data.all isTagChar = true ∧
      (cleanTag t).length ≤ 20 ∧ cleanTag t ∉ skills := by
  simp only [validateTag] at h
  split_ifs at h with h1 h2 h3 h4
  exact ⟨h1, by simpa using h2, by omega, h4⟩

end ProfilePanel

open ProfilePanel in
/-- C8 counterexample: the embedded code violates the claimed invariant at
concrete inputs — (a) `handleAdd` stores the mixed-case token "Python"
verbatim (no case folding, so the stored token does not match
`[a-z0-9_]+`); (b) a bracket-and-space prefixed input stores a 21-character
token containing `[` (validation re-cleans but storage does not); (c)
adding an already-present token is rejected with the error 该标签已存在
rather than collapsing silently. -/
theorem c8_counterexample :
    handleAdd [] "Python" = some ["Python"] ∧ isSpecSkillToken "Python" = false ∧
    handleAdd [] " [aaaaaaaaaaaaaaaaaaaa" = some ["[aaaaaaaaaaaaaaaaaaaa"] ∧
    "[aaaaaaaaaaaaaaaaaaaa".length = 21 ∧
    handleAdd ["python"] "python" = none ∧
    (validateTag ["python"] (cleanTag "python")).error = some "该标签已存在" := by
  decide

open ProfilePanel in
/-- C8 (amended): every skill token stored through the profile panel's add
or edit operation has a bracket-stripped-and-trimmed form (`cleanTag`)
that is nonempty, matches `[a-zA-Z0-9_]+` (case preserved — the code does
not fold case), has length at most 20 and is not already in the skill
list; and inserting a tag whose cleaned form is already present is
rejected, leaving the skill list unchanged, with an error reported rather
than a silent collapse. -/
theorem c8_amended_tag_invariant :
    (∀ (skills : List String) (tag : String) (res : List String),
        handleAdd skills tag = some res →
        res = skills ++ [cleanTag tag] ∧
        cleanTag (cleanTag tag) ≠ "" ∧
        (cleanTag (cleanTag tag)).data.all isTagChar = true ∧
        (cleanTag (cleanTag tag)).length ≤ 20 ∧
        cleanTag (cleanTag tag) ∉ skills) ∧
    (∀ (skills : List String) (i : Nat) (tag : String) (res : List String),
        handleSave skills i tag = some res →
        res = skills.set i (cleanTag tag) ∧
        cleanTag (cleanTag tag) ≠ "" ∧
        (cleanTag (cleanTag tag)).data.all isTagChar = true ∧
        (cleanTag (cleanTag tag)).length ≤ 20 ∧
        cleanTag (cleanTag tag) ∉ skills) ∧
    (∀ (skills : List String) (tag : String),
        cleanTag (cleanTag tag) ∈ skills → handleAdd skills tag = none) := by
  refine ⟨?_, ?_, ?_⟩
  · intro skills tag res h
    simp only [handleAdd] at h
    split_ifs at h with hv
    obtain ⟨h1, h2, h3, h4⟩ := validateTag_isValid_spec hv
    exact ⟨by simpa using h.symm, h1, h2, h3, h4⟩
  · intro skills i tag res h
    simp only [handleSave] at h
    split_ifs at h with hv
    obtain ⟨h1, h2, h3, h4⟩ := validateTag_isValid_spec hv
    exact ⟨by simpa using h.symm, h1, h2, h3, h4⟩
  · intro skills tag hmem
    simp only [handleAdd]
    split_ifs with hv
    · exact absurd hmem (validateTag_isValid_spec hv).2.2.2
    · rfl

open ProfilePanel in
/-- C8 witness: the amended invariant applied to a concrete successful
insertion. -/
theorem c8_amended_tag_invariant_witness :
    handleAdd [] "py" = some ["py"] ∧ cleanTag (cleanTag "py") ∉ ([] : List String) :=
  ⟨by decide, (c8_amended_tag_invariant.1 [] "py" ["py"] (by decide)).2.2.2.2⟩

end OpenRamp

namespace OpenRamp

/-! ## ProfileExtractor (modelled from the spec, section 4.2) -/

/-- Modelled from the spec: the per-user conversational states. -/
inductive SessState where
  | collecting | pending | confirmed
deriving DecidableEq

/-- Modelled from the spec: the action determined for a turn. -/
inductive Action where
  | NONE | CONFIRM | SEARCH
deriving DecidableEq

/-- Modelled from the spec: the single intent the extraction capability
recognizes in a message (a confirmation phrase, a discovery request, or
neither). -/
inductive Intent where
  | confirmIntent | discoverIntent | otherIntent
deriving DecidableEq

/-- Modelled from the spec: the structured result of the external
intent/keyword extraction capability for one message. -/
structure Extraction where
  skills : List String
  preferences : List Pref
deriving DecidableEq

/-- Modelled from the spec: the extraction capability consumed by the
extractor — the configurable skill vocabulary / heuristic pattern and the
fixed preference lexicon live behind it. -/
structure ExtractorCfg where
  intent : String → Intent
  extract : String → Extraction

/-- Modelled from the spec: per-user `Session` — state, accumulated draft,
turn history. -/
structure Session where
  state : SessState
  draft : UserProfile
  history : List (String × String)

/-- Modelled from the spec: the reply directive returned to the caller
(which produces the actual wording); `clarify` instructs the caller to
ask a clarifying question. -/
inductive Directive where
  | clarify | acknowledge | confirmNotice | searchNotice
deriving DecidableEq

/-- Modelled from the spec: step 2 — merge extracted skills/preferences
into the session's draft using set union. -/
def mergedDraft (cfg : ExtractorCfg) (s : Session) (msg : String) : UserProfile :=
  { skills := s.draft.skills ∪ (cfg.extract msg).skills.toFinset
    preferences := s.draft.preferences ∪ (cfg.extract msg).preferences.toFinset
    experience := s.draft.experience }

/-- Modelled from the spec: step 3 — determine the action: `CONFIRM` on a
confirmation phrase with at least one skill in the draft, `SEARCH` on a
discovery request from the `confirmed` state, `NONE` otherwise. -/
def turnAction (cfg : ExtractorCfg) (s : Session) (msg : String) : Action :=
  if cfg.intent msg = .confirmIntent ∧ (mergedDraft cfg s msg).skills.Nonempty then
    .CONFIRM
  else if s.state = .confirmed ∧ cfg.intent msg = .discoverIntent then
    .SEARCH
  else
    .NONE

/-- Modelled from the spec: step 4 — the state transition:
`collecting → pending` once the draft has a skill, `pending → confirmed`
only on an explicit `CONFIRM`, `confirmed` terminal. -/
def nextState (st : SessState) (hasSkill : Prop) [Decidable hasSkill]
    (a : Action) : SessState :=
  match st with
  | .collecting => if hasSkill then .pending else .collecting
  | .pending => if a = .CONFIRM then .confirmed else .pending
  | .confirmed => .confirmed

/-- Modelled from the spec: the directive accompanying the action — a
clarifying question when nothing was extracted and no action applies. -/
def directiveFor (extractedNothing : Bool) (a : Action) : Directive :=
  match a with
  | .CONFIRM => .confirmNotice
  | .SEARCH => .searchNotice
  | .NONE => if extractedNothing then .clarify else .acknowledge

/-- Modelled from the spec: `ProfileExtractor.process_turn` — tokenize and
extract, merge into the draft, determine the action, transition the
state, append the turn to the history.  Total: unparseable input is a
normal outcome, never an exception. -/
def process_turn (cfg : ExtractorCfg) (s : Session) (msg : String) :
    Directive × Action × Session :=
  let e := cfg.extract msg
  let draft := mergedDraft cfg s msg
  let a := turnAction cfg s msg
  (directiveFor (e.skills.isEmpty && e.preferences.isEmpty) a, a,
    { state := nextState s.state draft.skills.Nonempty a
      draft := draft
      history := s.history ++ [("user", msg)] })

/-- Modelled from the spec: reachable sessions never sit in `collecting`
with a nonempty draft (the transition leaves `collecting` as soon as the
draft gains a skill); fresh sessions start in `collecting` with an empty
draft. -/
def Session.Wf (s : Session) : Prop :=
  s.state = .collecting → s.draft.skills = ∅

/-- A fresh session: `collecting`, empty draft, empty history. -/
def freshSession : Session :=
  { state := .collecting
    draft := { skills := ∅, preferences := ∅, experience := none }
    history := [] }

theorem process_turn_wf (cfg : ExtractorCfg) (s : Session) (msg : String) :
    (process_turn cfg s msg).2.2.Wf := by
  intro hc
  show (mergedDraft cfg s msg).skills = ∅
  cases hs : s.state with
  | collecting =>
    by_cases hsk : (mergedDraft cfg s msg).skills.Nonempty
    · exact absurd hc (by simp [process_turn, nextState, hs, hsk])
    · exact Finset.not_nonempty_iff_eq_empty.mp hsk
  | pending =>
    by_cases ha : turnAction cfg s msg = .CONFIRM <;>
      exact absurd hc (by simp [process_turn, nextState, hs, ha])
  | confirmed =>
    exact absurd hc (by simp [process_turn, nextState, hs])

end OpenRamp

namespace OpenRamp

/-! ## A concrete extraction configuration (for the worked examples) -/

/-- Character-list test used by the substring check below. -/
def beginsWith : List Char → List Char → Bool
  | [], _ => true
  | _ :: _, [] => false
  | p :: ps, c :: cs => p == c && beginsWith ps cs

/-- Substring containment, the model of the source's `includes` tests. -/
def containsSub (pat s : String) : Bool :=
  s.data.tails.any (fun t => beginsWith pat.data t)

/-- A small concrete skill vocabulary (the configurable vocabulary the
spec leaves behind the extraction capability). -/
def skillVocab : List String :=
  ["python", "django", "javascript", "react", "rust", "go"]

/-- A small concrete preference lexicon mapping keywords to the six
contribution types. -/
def prefLexicon : List (String × Pref) :=
  [("修复", .bug_fix), ("功能", .feature), ("文档", .docs),
   ("社区", .community), ("审查", .review), ("测试", .test)]

/-- A concrete extraction configuration: confirmation on 确认, discovery
on 搜索, vocabulary-based skill extraction on the case-folded message. -/
def defaultCfg : ExtractorCfg :=
  { intent := fun msg =>
      if containsSub "确认" msg then .confirmIntent
      else if containsSub "搜索" msg then .discoverIntent
      else .otherIntent
    extract := fun msg =>
      { skills := skillVocab.filter (fun v => containsSub v (toLowerStr msg))
        preferences := (prefLexicon.filter (fun kv => containsSub kv.1 msg)).map Prod.snd } }

/-- A pending session whose draft already holds the skill `python`
(the state of the spec's fourth worked scenario). -/
def pendingPythonSession : Session :=
  { state := .pending
    draft := { skills := {"python"}, preferences := ∅, experience := none }
    history := [] }

/-! ## Claims about the profile extractor -/

/-- C3: the action returned by `process_turn` is `CONFIRM` exactly when
the message carries an explicit confirmation phrase and the (merged)
draft has at least one skill; `SEARCH` exactly when the session is
already `confirmed` and the message requests discovery; `NONE`
otherwise; and the spec's fourth scenario (turn 确认技能 while `pending`
with one skill) yields `CONFIRM` and the `confirmed` state. -/
theorem c3_action_determination :
    (∀ (cfg : ExtractorCfg) (s : Session) (msg : String),
        (process_turn cfg s msg).2.1 = .CONFIRM ↔
          cfg.intent msg = .confirmIntent ∧ (mergedDraft cfg s msg).skills.Nonempty) ∧
    (∀ (cfg : ExtractorCfg) (s : Session) (msg : String),
        (process_turn cfg s msg).2.1 = .SEARCH ↔
          s.state = .confirmed ∧ cfg.intent msg = .discoverIntent) ∧
    (∀ (cfg : ExtractorCfg) (s : Session) (msg : String),
        (process_turn cfg s msg).2.1 = .NONE ↔
          ¬(cfg.intent msg = .confirmIntent ∧ (mergedDraft cfg s msg).skills.Nonempty) ∧
          ¬(s.state = .confirmed ∧ cfg.intent msg = .discoverIntent)) ∧
    (process_turn defaultCfg pendingPythonSession "确认技能").2.1 = .CONFIRM ∧
    (process_turn defaultCfg pendingPythonSession "确认技能").2.2.state = .confirmed := by
  refine ⟨?_, ?_, ?_, by decide, by decide⟩
  · intro cfg s msg
    show turnAction cfg s msg = _ ↔ _
    unfold turnAction
    split_ifs with h1 h2 <;> simp_all
  · intro cfg s msg
    show turnAction cfg s msg = _ ↔ _
    unfold turnAction
    split_ifs with h1 h2 <;> simp_all
  · intro cfg s msg
    show turnAction cfg s msg = _ ↔ _
    unfold turnAction
    split_ifs with h1 h2 <;> simp_all

/-- C9: a chat turn from which nothing can be extracted (no tokens, no
recognized intent) is a normal outcome: the session state and the draft
profile are unchanged, the action is `NONE`, and the directive instructs
the caller to ask a clarifying question.  (`process_turn` is a total
function: no input makes it raise.) -/
theorem c9_unparseable_input_no_change :
    ∀ (cfg : ExtractorCfg) (s : Session) (msg : String), s.Wf →
      cfg.extract msg = ⟨[], []⟩ →
      cfg.intent msg = .otherIntent →
      (process_turn cfg s msg).1 = .clarify ∧
      (process_turn cfg s msg).2.1 = .NONE ∧
      (process_turn cfg s msg).2.2.state = s.state ∧
      (process_turn cfg s msg).2.2.draft = s.draft := by
  intro cfg s msg hwf hext hint
  have hd : mergedDraft cfg s msg = s.draft := by
    simp [mergedDraft, hext]
  have ha : turnAction cfg s msg = .NONE := by
    simp [turnAction, hint]
  refine ⟨?_, ?_, ?_, hd⟩
  · show directiveFor _ (turnAction cfg s msg) = _
    simp [hext, ha, directiveFor]
  · exact ha
  · show nextState s.state (mergedDraft cfg s msg).skills.Nonempty
      (turnAction cfg s msg) = s.state
    rw [hd, ha]
    cases hs : s.state with
    | collecting => simp [nextState, hwf hs]
    | pending => simp [nextState]
    | confirmed => simp [nextState]

/-- C9 witness: `c9_unparseable_input_no_change` applied to a concrete
session and a message carrying no tokens and no intent. -/
theorem c9_unparseable_input_no_change_witness :
    pendingPythonSession.Wf ∧ defaultCfg.extract "你好" = ⟨[], []⟩ ∧
      defaultCfg.intent "你好" = .otherIntent ∧
      (process_turn defaultCfg pendingPythonSession "你好").1 = .clarify ∧
      (process_turn defaultCfg pendingPythonSession "你好").2.2.state
        = pendingPythonSession.state :=
  have h1 : pendingPythonSession.Wf := by
    intro h
    exact absurd h (by decide)
  have h2 : defaultCfg.extract "你好" = ⟨[], []⟩ := by decide
  have h3 : defaultCfg.intent "你好" = .otherIntent := by decide
  ⟨h1, h2, h3,
    (c9_unparseable_input_no_change defaultCfg pendingPythonSession "你好" h1 h2 h3).1,
    (c9_unparseable_input_no_change defaultCfg pendingPythonSession "你好" h1 h2 h3).2.2.1⟩

end OpenRamp

namespace OpenRamp

/-! ## MetricsStore offline lookup (modelled from the spec, section 4.1) -/

/-- Lookup in the in-memory snapshot (first binding for the id). -/
def lookupRepo (store : List (String × RepoMetrics)) (id : String) :
    Option RepoMetrics :=
  match store with
  | [] => none
  | (k, m) :: rest => if k = id then some m else lookupRepo rest id

/-- Modelled from the spec: `MetricsStore.get` in offline mode — a pure
in-memory lookup over the batch; an id not present is reported in the
`missing` list, the remaining ids are still served.  Total: no id makes
it raise. -/
def MetricsStore.get (store : List (String × RepoMetrics)) (ids : List String) :
    List RepoMetrics × List String :=
  match ids with
  | [] => ([], [])
  | id :: rest =>
    let r := MetricsStore.get store rest
    match lookupRepo store id with
    | some m => (m :: r.1, r.2)
    | none => (r.1, id :: r.2)

/-- C4: for every batch of requested ids in offline mode, every requested
id absent from the store appears in the `missing` list, every present id
still contributes its record to the results (an absent id never aborts
the rest of the batch), and every requested id is accounted for in
exactly one of the two lists. -/
theorem c4_offline_get_missing :
    ∀ (store : List (String × RepoMetrics)) (ids : List String),
      (∀ id ∈ ids, lookupRepo store id = none →
        id ∈ (MetricsStore.get store ids).2) ∧
      (∀ id ∈ ids, ∀ m, lookupRepo store id = some m →
        m ∈ (MetricsStore.get store ids).1) ∧
      (MetricsStore.get store ids).1.length + (MetricsStore.get store ids).2.length
        = ids.length := by
  intro store ids
  induction ids with
  | nil => exact ⟨by simp, by simp, rfl⟩
  | cons id rest ih =>
    obtain ⟨ih1, ih2, ih3⟩ := ih
    refine ⟨?_, ?_, ?_⟩
    · intro x hx hnone
      simp only [MetricsStore.get]
      rcases List.mem_cons.mp hx with rfl | hx'
      · rw [hnone]
        simp
      · cases h : lookupRepo store id with
        | some m => simpa using ih1 x hx' hnone
        | none => simpa using Or.inr (ih1 x hx' hnone)
    · intro x hx m hm
      simp only [MetricsStore.get]
      rcases List.mem_cons.mp hx with rfl | hx'
      · rw [hm]
        simp
      · cases h : lookupRepo store id with
        | some m2 => simpa using Or.inr (ih2 x hx' m hm)
        | none => simpa using ih2 x hx' m hm
    · simp only [MetricsStore.get]
      cases h : lookupRepo store id with
      | some m =>
        simp only [List.length_cons]
        omega
      | none =>
        simp only [List.length_cons]
        omega

/-- C4 witness: `c4_offline_get_missing` applied to a concrete one-entry
store and a batch holding one present and one absent id. -/
theorem c4_offline_get_missing_witness :
    lookupRepo [("test/repo1", exampleMetrics)] "nope" = none ∧
      "nope" ∈ (MetricsStore.get [("test/repo1", exampleMetrics)]
        ["test/repo1", "nope"]).2 :=
  ⟨by decide,
    (c4_offline_get_missing [("test/repo1", exampleMetrics)]
        ["test/repo1", "nope"]).1 "nope" (by decide) (by decide)⟩

end OpenRamp

namespace OpenRamp

/-! ## SearchOrchestrator (modelled from the spec, section 4.4) -/

/-- A scored search candidate: the metrics record plus its match result. -/
structure Scored where
  repo : RepoMetrics
  result : MatchResult
deriving DecidableEq

/-- The deterministic ranking key: match score descending, composite
score descending, repo id ascending (negation turns the descending
components into an ascending lexicographic comparison). -/
def sortKey (x : Scored) : Lex (ℚ × Lex (ℚ × String)) :=
  toLex (-x.result.match_score, toLex (-composite_score x.repo, x.repo.repo_id))

/-- Modelled from the spec: the accumulator ordering of the orchestrator. -/
def rankLE (a b : Scored) : Prop :=
  sortKey a ≤ sortKey b

instance : DecidableRel rankLE :=
  fun a b => inferInstanceAs (Decidable (sortKey a ≤ sortKey b))

instance : IsTotal Scored rankLE :=
  ⟨fun a b => le_total (sortKey a) (sortKey b)⟩

instance : IsTrans Scored rankLE :=
  ⟨fun _ _ _ h1 h2 => le_trans h1 h2⟩

/-- The ranking relation spelt out the way the claim states it. -/
theorem rankLE_iff (a b : Scored) :
    rankLE a b ↔
      b.result.match_score < a.result.match_score ∨
        (a.result.match_score = b.result.match_score ∧
          (composite_score b.repo < composite_score a.repo ∨
            (composite_score a.repo = composite_score b.repo ∧
              a.repo.repo_id ≤ b.repo.repo_id))) := by
  unfold rankLE sortKey
  rw [Prod.Lex.le_iff, Prod.Lex.le_iff]
  simp only [neg_lt_neg_iff, neg_inj]

/-- Modelled from the spec: the search query — all profile skills as
terms (deterministically ordered), preferences as filters. -/
structure Query where
  terms : List String
  filters : Finset Pref

/-- Modelled from the spec: the initial, most-specific query built from
the profile. -/
def initQuery (p : UserProfile) : Query :=
  { terms := p.skills.sort (· ≤ ·), filters := p.preferences }

/-- Modelled from the spec: broaden the query between rounds by dropping
the least-informative skill term. -/
def broaden (q : Query) : Query :=
  { q with terms := q.terms.dropLast }

/-- The external search capability and backing store a search runs
against, with the modelled per-round time cost. -/
structure SearchEnv where
  searchCap : Query → List String
  store : List (String × RepoMetrics)
  roundTime : Nat

/-- Modelled from the spec: orchestrator configuration — the match
weights and the configurable acceptance threshold. -/
structure SearchCfg where
  weights : Weights
  threshold : ℚ

/-- Modelled from the spec: one round — query the external capability,
deduplicate against already-seen ids, resolve via the store, score, keep
the candidates at or above the acceptance threshold. -/
def runRound (cfg : SearchCfg) (env : SearchEnv) (p : UserProfile)
    (q : Query) (seen : List String) : List Scored × List String :=
  let ids := ((env.searchCap q).filter (fun i => i ∉ seen)).dedup
  let fetched := (MetricsStore.get env.store ids).1
  let accepted := (fetched.map (fun m => Scored.mk m (calculate cfg.weights p m))).filter
    (fun x => cfg.threshold ≤ x.result.match_score)
  (accepted, ids)

/-- Modelled from the spec: the round loop — stop on reaching the target
(`exhausted = false`), on a round with zero new candidates (stall), at
the deadline, or when the round budget is exhausted; returns the sorted
accumulator, the `exhausted` flag and the number of rounds executed. -/
def searchLoop (cfg : SearchCfg) (env : SearchEnv) (p : UserProfile)
    (target : Nat) (deadline : Nat) :
    Nat → Nat → Query → List Scored → List String → List Scored × Bool × Nat
  | 0, _, _, acc, _ => (acc, true, 0)
  | fuel + 1, time, q, acc, seen =>
    if deadline ≤ time then (acc, true, 0)
    else
      let round := runRound cfg env p q seen
      let acc2 := List.insertionSort rankLE (acc ++ round.1)
      if target ≤ acc2.length then (acc2, false, 1)
      else if round.2.isEmpty then (acc2, true, 1)
      else
        let next := searchLoop cfg env p target deadline fuel
          (time + env.roundTime) (broaden q) acc2 (seen ++ round.2)
        (next.1, next.2.1, next.2.2 + 1)

/-- Modelled from the spec: `SearchOrchestrator.search` — run the loop
from the profile's query with an empty accumulator; once the accumulator
reached the target, return the top `target_count` entries with
`exhausted = false`. -/
def search (cfg : SearchCfg) (env : SearchEnv) (p : UserProfile)
    (target max_rounds deadline : Nat) : List Scored × Bool × Nat :=
  let out := searchLoop cfg env p target deadline max_rounds 0 (initQuery p) [] []
  if target ≤ out.1.length then (out.1.take target, false, out.2.2) else out

theorem searchLoop_rounds_le (cfg : SearchCfg) (env : SearchEnv) (p : UserProfile)
    (target deadline : Nat) :
    ∀ (fuel time : Nat) (q : Query) (acc : List Scored) (seen : List String),
      (searchLoop cfg env p target deadline fuel time q acc seen).2.2 ≤ fuel := by
  intro fuel
  induction fuel with
  | zero =>
    intro time q acc seen
    simp [searchLoop]
  | succ n ih =>
    intro time q acc seen
    simp only [searchLoop]
    split_ifs with h1 h2 h3
    · simp
    · simp
    · simp
    · have := ih (time + env.roundTime) (broaden q)
        (List.insertionSort rankLE (acc ++ (runRound cfg env p q seen).1))
        (seen ++ (runRound cfg env p q seen).2)
      simpa using Nat.add_le_add_right this 1

theorem searchLoop_sorted (cfg : SearchCfg) (env : SearchEnv) (p : UserProfile)
    (target deadline : Nat) :
    ∀ (fuel time : Nat) (q : Query) (acc : List Scored) (seen : List String),
      List.Sorted rankLE acc →
      List.Sorted rankLE (searchLoop cfg env p target deadline fuel time q acc seen).1 := by
  intro fuel
  induction fuel with
  | zero =>
    intro time q acc seen hs
    simpa [searchLoop] using hs
  | succ n ih =>
    intro time q acc seen hs
    simp only [searchLoop]
    split_ifs with h1 h2 h3
    · exact hs
    · exact List.sorted_insertionSort rankLE _
    · exact List.sorted_insertionSort rankLE _
    · exact ih (time + env.roundTime) (broaden q) _ _
        (List.sorted_insertionSort rankLE _)

end OpenRamp

namespace OpenRamp

/-- C5: `SearchOrchestrator.search` terminates within the round budget —
it never executes more than `max_rounds` rounds, executes none when the
deadline has already passed, and executes at most one round when the
external search capability returns zero candidates in every round (the
stall cut-off). -/
theorem c5_search_termination :
    ∀ (cfg : SearchCfg) (env : SearchEnv) (p : UserProfile)
      (target max_rounds deadline : Nat),
      (search cfg env p target max_rounds deadline).2.2 ≤ max_rounds ∧
      (deadline = 0 → (search cfg env p target max_rounds deadline).2.2 = 0) ∧
      ((∀ q, env.searchCap q = []) →
        (search cfg env p target max_rounds deadline).2.2 ≤ 1) := by
  intro cfg env p target max_rounds deadline
  have hsearch : (search cfg env p target max_rounds deadline).2.2
      = (searchLoop cfg env p target deadline max_rounds 0 (initQuery p) [] []).2.2 := by
    simp only [search]
    split_ifs <;> rfl
  refine ⟨?_, ?_, ?_⟩
  · rw [hsearch]
    exact searchLoop_rounds_le cfg env p target deadline max_rounds 0 (initQuery p) [] []
  · intro h0
    rw [hsearch]
    cases max_rounds with
    | zero => simp [searchLoop]
    | succ n => simp [searchLoop, h0]
  · intro hempty
    rw [hsearch]
    cases max_rounds with
    | zero => simp [searchLoop]
    | succ n =>
      simp only [searchLoop]
      split_ifs with h1 h2 h3
      · simp
      · simp
      · simp
      · exact absurd (by simp [runRound, hempty]) h3

/-- C6: the result sequence of `SearchOrchestrator.search` is sorted by
match score descending with ties broken by composite score descending and
then by repo id ascending, and whenever the accumulator reaches
`target_count` the call returns exactly the top `target_count` entries
with `exhausted = false`. -/
theorem c6_sorted_results :
    ∀ (cfg : SearchCfg) (env : SearchEnv) (p : UserProfile)
      (target max_rounds deadline : Nat),
      List.Pairwise (fun a b : Scored =>
          b.result.match_score < a.result.match_score ∨
            (a.result.match_score = b.result.match_score ∧
              (composite_score b.repo < composite_score a.repo ∨
                (composite_score a.repo = composite_score b.repo ∧
                  a.repo.repo_id ≤ b.repo.repo_id))))
        (search cfg env p target max_rounds deadline).1 ∧
      (target ≤ (searchLoop cfg env p target deadline max_rounds 0
          (initQuery p) [] []).1.length →
        (search cfg env p target max_rounds deadline).1
            = (searchLoop cfg env p target deadline max_rounds 0
                (initQuery p) [] []).1.take target ∧
        (search cfg env p target max_rounds deadline).1.length = target ∧
        (search cfg env p target max_rounds deadline).2.1 = false) := by
  intro cfg env p target max_rounds deadline
  have hsorted : List.Sorted rankLE
      (searchLoop cfg env p target deadline max_rounds 0 (initQuery p) [] []).1 :=
    searchLoop_sorted cfg env p target deadline max_rounds 0 (initQuery p) [] []
      (by simp)
  constructor
  · have hres : List.Sorted rankLE (search cfg env p target max_rounds deadline).1 := by
      simp only [search]
      split_ifs with h
      · exact hsorted.sublist (List.take_sublist _ _)
      · exact hsorted
    exact hres.imp (fun h => (rankLE_iff _ _).mp h)
  · intro h
    simp only [search]
    rw [if_pos h]
    refine ⟨rfl, ?_, rfl⟩
    rw [List.length_take]
    omega

end OpenRamp

namespace OpenRamp

/-- An environment whose search capability returns no candidates. -/
def emptyEnv : SearchEnv :=
  { searchCap := fun _ => [], store := [], roundTime := 1 }

/-- An environment surfacing the single example repository. -/
def oneRepoEnv : SearchEnv :=
  { searchCap := fun _ => ["x/y"], store := [("x/y", exampleMetrics)], roundTime := 1 }

/-- The orchestrator configuration with the documented default weights and
an accept-everything threshold. -/
def defaultSearchCfg : SearchCfg :=
  { weights := defaultWeights, threshold := 0 }

/-- C5 witness: `c5_search_termination` at a concrete configuration whose
search capability yields zero candidates in every round. -/
theorem c5_search_termination_witness :
    emptyEnv.searchCap (initQuery emptyProfile) = [] ∧
      (search defaultSearchCfg emptyEnv emptyProfile 5 3 10).2.2 ≤ 3 ∧
      (search defaultSearchCfg emptyEnv emptyProfile 5 3 10).2.2 ≤ 1 :=
  ⟨rfl,
    (c5_search_termination defaultSearchCfg emptyEnv emptyProfile 5 3 10).1,
    (c5_search_termination defaultSearchCfg emptyEnv emptyProfile 5 3 10).2.2
      (fun _ => rfl)⟩

/-- C6 witness: `c6_sorted_results` at a concrete one-repository search
that reaches its target of one result in the first round. -/
theorem c6_sorted_results_witness :
    1 ≤ (searchLoop defaultSearchCfg oneRepoEnv emptyProfile 1 10 3 0
        (initQuery emptyProfile) [] []).1.length ∧
      (search defaultSearchCfg oneRepoEnv emptyProfile 1 3 10).1.length = 1 ∧
      (search defaultSearchCfg oneRepoEnv emptyProfile 1 3 10).2.1 = false :=
  have hlen : 1 ≤ (searchLoop defaultSearchCfg oneRepoEnv emptyProfile 1 10 3 0
      (initQuery emptyProfile) [] []).1.length := by
    have hm : (0:ℚ) ≤ (calculate defaultWeights emptyProfile exampleMetrics).match_score := by
      norm_num [calculate, skill_dim, active_score, demand_score, exampleMetrics,
        emptyProfile, skillPool, normalizedLanguages, latest_openrank, min_def, max_def,
        defaultWeights]
    simp only [searchLoop, runRound, initQuery, oneRepoEnv, defaultSearchCfg]
    norm_num [MetricsStore.get, lookupRepo, List.insertionSort, List.orderedInsert, hm]
  ⟨hlen,
    ((c6_sorted_results defaultSearchCfg oneRepoEnv emptyProfile 1 3 10).2 hlen).2.1,
    ((c6_sorted_results defaultSearchCfg oneRepoEnv emptyProfile 1 3 10).2 hlen).2.2⟩

end OpenRamp

namespace OpenRamp

/-! ## The JSON value layer behind the storage wrapper
(the model of the `JSON.stringify` / `JSON.parse` builtins used by
`frontend/src/utils/storage.ts`).  Numbers are modelled as integers: the
profile payloads the wrapper stores carry only strings, arrays, objects,
booleans and null, and IEEE-754 fractional printing is outside the
embedding. -/

/-- A JSON value. -/
inductive Json where
  | null : Json
  | jbool : Bool → Json
  | jnum : Int → Json
  | jstr : String → Json
  | jarr : List Json → Json
  | jobj : List (String × Json) → Json

/-- Decimal digits of a natural number, most significant first. -/
def natChars (n : Nat) : List Char :=
  if n < 10 then [Nat.digitChar n]
  else natChars (n / 10) ++ [Nat.digitChar (n % 10)]
termination_by n
decreasing_by exact Nat.div_lt_self (by omega) (by omega)

/-- Decimal digits of an integer, with a sign for negative values. -/
def intChars : Int → List Char
  | .ofNat n => natChars n
  | .negSucc n => '-' :: natChars (n + 1)

/-- The escape `JSON.stringify` applies to one character: `"` and `\`
get a backslash, the five named controls get their short escapes, the
remaining controls become `\u00XX`, and everything else is literal. -/
def escChar (c : Char) : List Char :=
  if c = '"' then ['\\', '"']
  else if c = '\\' then ['\\', '\\']
  else if c = '\n' then ['\\', 'n']
  else if c = '\t' then ['\\', 't']
  else if c = '\r' then ['\\', 'r']
  else if c.toNat = 8 then ['\\', 'b']
  else if c.toNat = 12 then ['\\', 'f']
  else if c.toNat < 32 then
    ['\\', 'u', '0', '0', Nat.digitChar (c.toNat / 16), Nat.digitChar (c.toNat % 16)]
  else [c]

/-- Escape a character sequence. -/
def escChars : List Char → List Char
  | [] => []
  | c :: cs => escChar c ++ escChars cs

/-- A JSON string literal: quoted and escaped. -/
def strChars (s : String) : List Char :=
  '"' :: escChars s.data ++ ['"']

mutual

/-- The characters `JSON.stringify` produces for a value (no whitespace,
members in insertion order). -/
def stringifyChars : Json → List Char
  | .null => ['n', 'u', 'l', 'l']
  | .jbool true => ['t', 'r', 'u', 'e']
  | .jbool false => ['f', 'a', 'l', 's', 'e']
  | .jnum i => intChars i
  | .jstr s => strChars s
  | .jarr xs => '[' :: elemsChars xs ++ [']']
  | .jobj kvs => '{' :: membersChars kvs ++ ['}']

/-- Comma-separated array elements. -/
def elemsChars : List Json → List Char
  | [] => []
  | [x] => stringifyChars x
  | x :: y :: xs => stringifyChars x ++ ',' :: elemsChars (y :: xs)

/-- Comma-separated object members. -/
def membersChars : List (String × Json) → List Char
  | [] => []
  | [(k, v)] => strChars k ++ ':' :: stringifyChars v
  | (k, v) :: m :: kvs =>
    strChars k ++ ':' :: stringifyChars v ++ ',' :: membersChars (m :: kvs)

end

/-- `JSON.stringify`. -/
def Json.stringify (v : Json) : String :=
  ⟨stringifyChars v⟩

mutual

/-- A size measure bounding the parsing fuel a value needs. -/
def jsonSize : Json → Nat
  | .null => 1
  | .jbool _ => 1
  | .jnum _ => 1
  | .jstr _ => 1
  | .jarr xs => elemsSize xs + 1
  | .jobj kvs => membersSize kvs + 1

/-- Size measure for an element list. -/
def elemsSize : List Json → Nat
  | [] => 1
  | x :: xs => jsonSize x + elemsSize xs + 1

/-- Size measure for a member list. -/
def membersSize : List (String × Json) → Nat
  | [] => 1
  | kv :: kvs => jsonSize kv.2 + membersSize kvs + 1

end

/-- Value of a hexadecimal digit. -/
def hexVal (c : Char) : Option Nat :=
  if '0' ≤ c ∧ c ≤ '9' then some (c.toNat - 48)
  else if 'a' ≤ c ∧ c ≤ 'f' then some (c.toNat - 87)
  else if 'A' ≤ c ∧ c ≤ 'F' then some (c.toNat - 55)
  else none

/-- Parse the remainder of a JSON string literal (the opening quote
already consumed), unescaping as `JSON.parse` does. -/
def parseStrAux : List Char → List Char → Option (String × List Char)
  | [], _ => none
  | c :: cs, acc =>
    if c = '"' then some (⟨acc.reverse⟩, cs)
    else if c = '\\' then
      match cs with
      | '"' :: cs2 => parseStrAux cs2 ('"' :: acc)
      | '\\' :: cs2 => parseStrAux cs2 ('\\' :: acc)
      | '/' :: cs2 => parseStrAux cs2 ('/' :: acc)
      | 'b' :: cs2 => parseStrAux cs2 (Char.ofNat 8 :: acc)
      | 'f' :: cs2 => parseStrAux cs2 (Char.ofNat 12 :: acc)
      | 'n' :: cs2 => parseStrAux cs2 ('\n' :: acc)
      | 'r' :: cs2 => parseStrAux cs2 ('\r' :: acc)
      | 't' :: cs2 => parseStrAux cs2 ('\t' :: acc)
      | 'u' :: h1 :: h2 :: h3 :: h4 :: cs2 =>
        match hexVal h1, hexVal h2, hexVal h3, hexVal h4 with
        | some a, some b, some c2, some d =>
          parseStrAux cs2 (Char.ofNat (((a * 16 + b) * 16 + c2) * 16 + d) :: acc)
        | _, _, _, _ => none
      | _ => none
    else parseStrAux cs (c :: acc)

/-- Parse a nonempty run of decimal digits into its value. -/
def parseDigits (cs : List Char) : Option (Nat × List Char) :=
  let ds := cs.takeWhile Char.isDigit
  if ds.isEmpty then none
  else some (ds.foldl (fun a c => a * 10 + (c.toNat - 48)) 0, cs.dropWhile Char.isDigit)

/-- Parse a JSON number (integer syntax). -/
def parseNum : List Char → Option (Json × List Char)
  | [] => none
  | c :: cs2 =>
    if c = '-' then (parseDigits cs2).map (fun p => (.jnum (-(p.1 : Int)), p.2))
    else (parseDigits (c :: cs2)).map (fun p => (.jnum (p.1 : Int), p.2))

mutual

/-- Fuel-indexed JSON value parser (the model of `JSON.parse` on the
whitespace-free documents `JSON.stringify` emits). -/
def parseVal : Nat → List Char → Option (Json × List Char)
  | 0, _ => none
  | fuel + 1, cs =>
    match cs with
    | [] => none
    | c :: rest =>
      if c = 'n' then
        match rest with
        | 'u' :: 'l' :: 'l' :: r => some (.null, r)
        | _ => none
      else if c = 't' then
        match rest with
        | 'r' :: 'u' :: 'e' :: r => some (.jbool true, r)
        | _ => none
      else if c = 'f' then
        match rest with
        | 'a' :: 'l' :: 's' :: 'e' :: r => some (.jbool false, r)
        | _ => none
      else if c = '"' then
        (parseStrAux rest []).map (fun p => (.jstr p.1, p.2))
      else if c = '[' then
        (parseElems fuel rest).map (fun p => (.jarr p.1, p.2))
      else if c = '{' then
        (parseMembers fuel rest).map (fun p => (.jobj p.1, p.2))
      else
        parseNum (c :: rest)

/-- Parse array elements up to the closing bracket. -/
def parseElems : Nat → List Char → Option (List Json × List Char)
  | 0, _ => none
  | fuel + 1, cs =>
    if cs.head? = some ']' then some ([], cs.tail)
    else
      match parseVal fuel cs with
      | none => none
      | some (v, r) =>
        match r with
        | ',' :: r2 =>
          match parseElems fuel r2 with
          | none => none
          | some (vs, r3) => some (v :: vs, r3)
        | ']' :: r2 => some ([v], r2)
        | _ => none

/-- Parse object members up to the closing brace. -/
def parseMembers : Nat → List Char → Option (List (String × Json) × List Char)
  | 0, _ => none
  | fuel + 1, cs =>
    if cs.head? = some '}' then some ([], cs.tail)
    else
      match cs with
      | '"' :: cs2 =>
        match parseStrAux cs2 [] with
        | none => none
        | some (k, r) =>
          match r with
          | ':' :: r2 =>
            match parseVal fuel r2 with
            | none => none
            | some (v, r3) =>
              match r3 with
              | ',' :: r4 =>
                match parseMembers fuel r4 with
                | none => none
                | some (kvs, r5) => some ((k, v) :: kvs, r5)
              | '}' :: r4 => some ([(k, v)], r4)
              | _ => none
          | _ => none
      | _ => none

end

/-- `JSON.parse`, requiring the whole input to be consumed; a parse error
(an exception in the browser) is modelled as `none`. -/
def Json.parse (s : String) : Option Json :=
  match parseVal (2 * s.data.length + 2) s.data with
  | some (v, []) => some v
  | _ => none

end OpenRamp

namespace OpenRamp

/-! ### Digit and number lemmas -/

theorem digitChar_isDigit : ∀ d : Nat, d < 10 → (Nat.digitChar d).isDigit = true := by
  decide

theorem digitChar_sub48 : ∀ d : Nat, d < 10 → (Nat.digitChar d).toNat - 48 = d := by
  decide

theorem hexVal_digitChar : ∀ d : Nat, d < 16 → hexVal (Nat.digitChar d) = some d := by
  decide

theorem natChars_spec (n : Nat) :
    (∃ c t, natChars n = c :: t) ∧ (∀ c ∈ natChars n, c.isDigit = true) := by
  induction n using Nat.strong_induction_on with
  | _ n IH =>
    rw [natChars]
    split_ifs with h
    · exact ⟨⟨_, _, rfl⟩, by simpa using digitChar_isDigit n h⟩
    · have h10 : n / 10 < n := Nat.div_lt_self (by omega) (by omega)
      obtain ⟨⟨c, t, hct⟩, hdig⟩ := IH (n / 10) h10
      refine ⟨⟨c, t ++ [Nat.digitChar (n % 10)], by rw [hct]; rfl⟩, ?_⟩
      intro x hx
      rcases List.mem_append.mp hx with hx | hx
      · exact hdig x hx
      · simp only [List.mem_singleton] at hx
        subst hx
        exact digitChar_isDigit _ (Nat.mod_lt _ (by omega))

theorem natChars_val (n : Nat) :
    (natChars n).foldl (fun a c => a * 10 + (c.toNat - 48)) 0 = n := by
  induction n using Nat.strong_induction_on with
  | _ n IH =>
    rw [natChars]
    split_ifs with h
    · simpa using digitChar_sub48 n h
    · have h10 : n / 10 < n := Nat.div_lt_self (by omega) (by omega)
      rw [List.foldl_append, IH (n / 10) h10]
      simp only [List.foldl_cons, List.foldl_nil]
      rw [digitChar_sub48 _ (Nat.mod_lt _ (by omega))]
      omega

theorem takeWhile_append_all {p : Char → Bool} :
    ∀ (ds rest : List Char), (∀ c ∈ ds, p c = true) →
      (∀ r, rest.head? = some r → p r = false) →
      (ds ++ rest).takeWhile p = ds ∧ (ds ++ rest).dropWhile p = rest := by
  intro ds
  induction ds with
  | nil =>
    intro rest _ hr
    cases rest with
    | nil => exact ⟨rfl, rfl⟩
    | cons r t =>
      constructor
      · simp [List.takeWhile_cons, hr r rfl]
      · simp [List.dropWhile_cons, hr r rfl]
  | cons d ds ih =>
    intro rest hd hr
    have hpd : p d = true := hd d (by simp)
    obtain ⟨h1, h2⟩ := ih rest (fun c hc => hd c (by simp [hc])) hr
    constructor
    · simp [List.takeWhile_cons, hpd, h1]
    · simp [List.dropWhile_cons, hpd, h2]

theorem parseDigits_natChars (n : Nat) (rest : List Char)
    (hr : ∀ r, rest.head? = some r → r.isDigit = false) :
    parseDigits (natChars n ++ rest) = some (n, rest) := by
  obtain ⟨⟨c, t, hct⟩, hdig⟩ := natChars_spec n
  obtain ⟨h1, h2⟩ := takeWhile_append_all (natChars n) rest hdig hr
  simp only [parseDigits, h1, h2]
  rw [hct]
  simp only [List.isEmpty_cons, Bool.false_eq_true, if_false]
  rw [← hct, natChars_val]

theorem isDigit_ne (c : Char) (h : c.isDigit = true) :
    c ≠ 'n' ∧ c ≠ 't' ∧ c ≠ 'f' ∧ c ≠ '"' ∧ c ≠ '[' ∧ c ≠ '{' ∧ c ≠ '-' ∧
      c ≠ ']' ∧ c ≠ '}' ∧ c ≠ ',' := by
  refine ⟨?_, ?_, ?_, ?_, ?_, ?_, ?_, ?_, ?_, ?_⟩ <;>
    exact fun heq => absurd (heq ▸ h) (by decide)

end OpenRamp

namespace OpenRamp

/-! ### String escape/unescape roundtrip -/

set_option maxHeartbeats 1000000 in
theorem parseStrAux_unicode (h3 h4 : Char) (a b : Nat) (tail acc : List Char)
    (hh3 : hexVal h3 = some a) (hh4 : hexVal h4 = some b) :
    parseStrAux ('\\' :: 'u' :: '0' :: '0' :: h3 :: h4 :: tail) acc
      = parseStrAux tail (Char.ofNat (((0 * 16 + 0) * 16 + a) * 16 + b) :: acc) := by
  simp +decide only [parseStrAux]
  rw [show hexVal '0' = some 0 from by decide, hh3, hh4]
  simp

end OpenRamp

namespace OpenRamp

theorem parseStrAux_esc_quote (tail acc : List Char) :
    parseStrAux ('\\' :: '"' :: tail) acc = parseStrAux tail ('"' :: acc) := rfl

theorem parseStrAux_esc_back (tail acc : List Char) :
    parseStrAux ('\\' :: '\\' :: tail) acc = parseStrAux tail ('\\' :: acc) := rfl

theorem parseStrAux_esc_n (tail acc : List Char) :
    parseStrAux ('\\' :: 'n' :: tail) acc = parseStrAux tail ('\n' :: acc) := rfl

theorem parseStrAux_esc_t (tail acc : List Char) :
    parseStrAux ('\\' :: 't' :: tail) acc = parseStrAux tail ('\t' :: acc) := rfl

theorem parseStrAux_esc_r (tail acc : List Char) :
    parseStrAux ('\\' :: 'r' :: tail) acc = parseStrAux tail ('\r' :: acc) := rfl

theorem parseStrAux_esc_b (tail acc : List Char) :
    parseStrAux ('\\' :: 'b' :: tail) acc = parseStrAux tail (Char.ofNat 8 :: acc) := rfl

theorem parseStrAux_esc_f (tail acc : List Char) :
    parseStrAux ('\\' :: 'f' :: tail) acc = parseStrAux tail (Char.ofNat 12 :: acc) := rfl

theorem parseStrAux_lit (c : Char) (h1 : ¬c = '"') (h2 : ¬c = '\\')
    (tail acc : List Char) :
    parseStrAux (c :: tail) acc = parseStrAux tail (c :: acc) := by
  rw [parseStrAux.eq_def]
  simp only [if_neg h1, if_neg h2]

theorem parseStrAux_escChars :
    ∀ (cs acc rest : List Char),
      parseStrAux (escChars cs ++ '"' :: rest) acc = some (⟨acc.reverse ++ cs⟩, rest) := by
  intro cs
  induction cs with
  | nil =>
    intro acc rest
    show parseStrAux ('"' :: rest) acc = _
    rw [parseStrAux.eq_def]
    simp
  | cons c cs ih =>
    intro acc rest
    simp only [escChars, List.append_assoc]
    by_cases h1 : c = '"'
    · subst h1
      show parseStrAux ('\\' :: '"' :: (escChars cs ++ '"' :: rest)) acc = _
      rw [parseStrAux_esc_quote, ih]
      simp
    · by_cases h2 : c = '\\'
      · subst h2
        show parseStrAux ('\\' :: '\\' :: (escChars cs ++ '"' :: rest)) acc = _
        rw [parseStrAux_esc_back, ih]
        simp
      · by_cases h3 : c = '\n'
        · subst h3
          show parseStrAux ('\\' :: 'n' :: (escChars cs ++ '"' :: rest)) acc = _
          rw [parseStrAux_esc_n, ih]
          simp
        · by_cases h4 : c = '\t'
          · subst h4
            show parseStrAux ('\\' :: 't' :: (escChars cs ++ '"' :: rest)) acc = _
            rw [parseStrAux_esc_t, ih]
            simp
          · by_cases h5 : c = '\r'
            · subst h5
              show parseStrAux ('\\' :: 'r' :: (escChars cs ++ '"' :: rest)) acc = _
              rw [parseStrAux_esc_r, ih]
              simp
            · by_cases h6 : c.toNat = 8
              · have hesc : escChar c = ['\\', 'b'] := by
                  simp [escChar, h1, h2, h3, h4, h5, h6]
                have hc : Char.ofNat 8 = c := by
                  rw [← h6, Char.ofNat_toNat]
                rw [hesc]
                show parseStrAux ('\\' :: 'b' :: (escChars cs ++ '"' :: rest)) acc = _
                rw [parseStrAux_esc_b, ih, hc]
                simp
              · by_cases h7 : c.toNat = 12
                · have hesc : escChar c = ['\\', 'f'] := by
                    simp [escChar, h1, h2, h3, h4, h5, h6, h7]
                  have hc : Char.ofNat 12 = c := by
                    rw [← h7, Char.ofNat_toNat]
                  rw [hesc]
                  show parseStrAux ('\\' :: 'f' :: (escChars cs ++ '"' :: rest)) acc = _
                  rw [parseStrAux_esc_f, ih, hc]
                  simp
                · by_cases h8 : c.toNat < 32
                  · have hesc : escChar c = ['\\', 'u', '0', '0',
                        Nat.digitChar (c.toNat / 16), Nat.digitChar (c.toNat % 16)] := by
                      simp [escChar, h1, h2, h3, h4, h5, h6, h7, h8]
                    have hd1 : hexVal (Nat.digitChar (c.toNat / 16)) = some (c.toNat / 16) :=
                      hexVal_digitChar _ (by omega)
                    have hd2 : hexVal (Nat.digitChar (c.toNat % 16)) = some (c.toNat % 16) :=
                      hexVal_digitChar _ (by omega)
                    have hc : Char.ofNat (((0 * 16 + 0) * 16 + c.toNat / 16) * 16
                        + c.toNat % 16) = c := by
                      have he : ((0 * 16 + 0) * 16 + c.toNat / 16) * 16 + c.toNat % 16
                          = c.toNat := by omega
                      rw [he, Char.ofNat_toNat]
                    rw [hesc]
                    show parseStrAux ('\\' :: 'u' :: '0' :: '0'
                        :: Nat.digitChar (c.toNat / 16) :: Nat.digitChar (c.toNat % 16)
                        :: (escChars cs ++ '"' :: rest)) acc = _
                    rw [parseStrAux_unicode _ _ _ _ _ _ hd1 hd2, ih, hc]
                    simp
                  · have hesc : escChar c = [c] := by
                      simp [escChar, h1, h2, h3, h4, h5, h6, h7, h8]
                    rw [hesc]
                    show parseStrAux (c :: (escChars cs ++ '"' :: rest)) acc = _
                    rw [parseStrAux_lit c h1 h2, ih]
                    simp

end OpenRamp

namespace OpenRamp

/-! ### Number and head-character lemmas -/

theorem parseNum_intChars (i : Int) (rest : List Char)
    (hr : ∀ r, rest.head? = some r → r.isDigit = false) :
    parseNum (intChars i ++ rest) = some (.jnum i, rest) := by
  cases i with
  | ofNat n =>
    obtain ⟨⟨c, t, hct⟩, hdig⟩ := natChars_spec n
    have hc : c.isDigit = true := hdig c (by rw [hct]; simp)
    have hne : ¬c = '-' := (isDigit_ne c hc).2.2.2.2.2.2.1
    show parseNum (natChars n ++ rest) = _
    rw [hct, List.cons_append, parseNum.eq_def]
    simp only [if_neg hne]
    rw [← List.cons_append, ← hct, parseDigits_natChars n rest hr]
    rfl
  | negSucc m =>
    show parseNum (('-' :: natChars (m + 1)) ++ rest) = _
    rw [List.cons_append, parseNum.eq_def]
    simp only [if_pos rfl]
    rw [parseDigits_natChars (m + 1) rest hr]
    simp [Int.negSucc_coe]

theorem stringifyChars_head (v : Json) :
    ∃ c t, stringifyChars v = c :: t ∧ ¬c = ']' ∧ ¬c = '}' := by
  cases v with
  | null => exact ⟨'n', ['u', 'l', 'l'], by simp [stringifyChars], by decide, by decide⟩
  | jbool b =>
    cases b with
    | false => exact ⟨'f', ['a', 'l', 's', 'e'], by simp [stringifyChars], by decide, by decide⟩
    | true => exact ⟨'t', ['r', 'u', 'e'], by simp [stringifyChars], by decide, by decide⟩
  | jnum i =>
    cases i with
    | ofNat n =>
      obtain ⟨⟨c, t, hct⟩, hdig⟩ := natChars_spec n
      have hc : c.isDigit = true := hdig c (by rw [hct]; simp)
      exact ⟨c, t, by simp [stringifyChars, intChars, hct],
        (isDigit_ne c hc).2.2.2.2.2.2.2.1, (isDigit_ne c hc).2.2.2.2.2.2.2.2.1⟩
    | negSucc m =>
      exact ⟨'-', natChars (m + 1), by simp [stringifyChars, intChars], by decide, by decide⟩
  | jstr s => exact ⟨'"', escChars s.data ++ ['"'], by simp [stringifyChars, strChars], by decide, by decide⟩
  | jarr xs => exact ⟨'[', elemsChars xs ++ [']'], by simp [stringifyChars], by decide, by decide⟩
  | jobj kvs => exact ⟨'{', membersChars kvs ++ ['}'], by simp [stringifyChars], by decide, by decide⟩

end OpenRamp

namespace OpenRamp

/-! ### Parser step lemmas -/

theorem jsonSize_pos : ∀ v : Json, 1 ≤ jsonSize v := by
  intro v
  cases v <;> simp [jsonSize]

theorem elemsSize_pos : ∀ xs : List Json, 1 ≤ elemsSize xs := by
  intro xs
  cases xs <;> simp [elemsSize]

theorem membersSize_pos : ∀ kvs : List (String × Json), 1 ≤ membersSize kvs := by
  intro kvs
  cases kvs <;> simp [membersSize]

theorem parseVal_null (fuel : Nat) (r : List Char) :
    parseVal (fuel + 1) ('n' :: 'u' :: 'l' :: 'l' :: r) = some (.null, r) := by
  rw [parseVal.eq_def]
  simp

theorem parseVal_true (fuel : Nat) (r : List Char) :
    parseVal (fuel + 1) ('t' :: 'r' :: 'u' :: 'e' :: r) = some (.jbool true, r) := by
  rw [parseVal.eq_def]
  simp +decide

theorem parseVal_false (fuel : Nat) (r : List Char) :
    parseVal (fuel + 1) ('f' :: 'a' :: 'l' :: 's' :: 'e' :: r) = some (.jbool false, r) := by
  rw [parseVal.eq_def]
  simp +decide

theorem parseVal_str (fuel : Nat) (r : List Char) :
    parseVal (fuel + 1) ('"' :: r)
      = (parseStrAux r []).map (fun p => (.jstr p.1, p.2)) := by
  rw [parseVal.eq_def]
  simp +decide

theorem parseVal_arr (fuel : Nat) (r : List Char) :
    parseVal (fuel + 1) ('[' :: r)
      = (parseElems fuel r).map (fun p => (.jarr p.1, p.2)) := by
  rw [parseVal.eq_def]
  simp +decide

theorem parseVal_obj (fuel : Nat) (r : List Char) :
    parseVal (fuel + 1) ('{' :: r)
      = (parseMembers fuel r).map (fun p => (.jobj p.1, p.2)) := by
  rw [parseVal.eq_def]
  simp +decide

theorem parseVal_digit (fuel : Nat) (c : Char) (r : List Char)
    (hc : c.isDigit = true) :
    parseVal (fuel + 1) (c :: r) = parseNum (c :: r) := by
  obtain ⟨hn, ht, hf, hq, hb, hcur, _, _, _, _⟩ := isDigit_ne c hc
  rw [parseVal.eq_def]
  simp only [if_neg hn, if_neg ht, if_neg hf, if_neg hq, if_neg hb, if_neg hcur]

theorem parseVal_minus (fuel : Nat) (r : List Char) :
    parseVal (fuel + 1) ('-' :: r) = parseNum ('-' :: r) := by
  rw [parseVal.eq_def]
  simp +decide

theorem parseElems_close (fuel : Nat) (r : List Char) :
    parseElems (fuel + 1) (']' :: r) = some ([], r) := by
  rw [parseElems.eq_def]
  simp

theorem parseElems_step (fuel : Nat) (cs : List Char)
    (h : ¬cs.head? = some ']') :
    parseElems (fuel + 1) cs
      = match parseVal fuel cs with
        | none => none
        | some (v, r) =>
          match r with
          | ',' :: r2 =>
            (match parseElems fuel r2 with
             | none => none
             | some (vs, r3) => some (v :: vs, r3))
          | ']' :: r2 => some ([v], r2)
          | _ => none := by
  rw [parseElems.eq_def]
  simp only [if_neg h]

theorem parseMembers_close (fuel : Nat) (r : List Char) :
    parseMembers (fuel + 1) ('}' :: r) = some ([], r) := by
  rw [parseMembers.eq_def]
  simp

theorem parseMembers_step (fuel : Nat) (cs2 : List Char)
    (h : ¬('"' :: cs2).head? = some '}') :
    parseMembers (fuel + 1) ('"' :: cs2)
      = match parseStrAux cs2 [] with
        | none => none
        | some (k, r) =>
          match r with
          | ':' :: r2 =>
            (match parseVal fuel r2 with
             | none => none
             | some (v, r3) =>
               match r3 with
               | ',' :: r4 =>
                 (match parseMembers fuel r4 with
                  | none => none
                  | some (kvs, r5) => some ((k, v) :: kvs, r5))
               | '}' :: r4 => some ([(k, v)], r4)
               | _ => none)
          | _ => none := by
  rw [parseMembers.eq_def]
  simp only [if_neg h]

end OpenRamp

namespace OpenRamp

/-! ### The stringify/parse roundtrip -/

theorem parse_stringify_aux : ∀ N : Nat,
    (∀ (v : Json) (fuel : Nat) (rest : List Char),
      jsonSize v ≤ N → jsonSize v ≤ fuel →
      (∀ r, rest.head? = some r → r.isDigit = false) →
      parseVal fuel (stringifyChars v ++ rest) = some (v, rest)) ∧
    (∀ (xs : List Json) (fuel : Nat) (rest : List Char),
      elemsSize xs ≤ N → elemsSize xs ≤ fuel →
      parseElems fuel (elemsChars xs ++ ']' :: rest) = some (xs, rest)) ∧
    (∀ (kvs : List (String × Json)) (fuel : Nat) (rest : List Char),
      membersSize kvs ≤ N → membersSize kvs ≤ fuel →
      parseMembers fuel (membersChars kvs ++ '}' :: rest) = some (kvs, rest)) := by
  intro N
  induction N using Nat.strong_induction_on with
  | _ N IH =>
    refine ⟨?_, ?_, ?_⟩
    · intro v fuel rest hN hfuel hrest
      have hv1 : 1 ≤ jsonSize v := jsonSize_pos v
      obtain ⟨f, rfl⟩ : ∃ f, fuel = f + 1 := ⟨fuel - 1, by omega⟩
      cases v with
      | null =>
        simp only [stringifyChars, List.cons_append, List.nil_append]
        exact parseVal_null f rest
      | jbool b =>
        cases b with
        | true =>
          simp only [stringifyChars, List.cons_append, List.nil_append]
          exact parseVal_true f rest
        | false =>
          simp only [stringifyChars, List.cons_append, List.nil_append]
          exact parseVal_false f rest
      | jnum i =>
        simp only [stringifyChars]
        have hnum := parseNum_intChars i rest hrest
        cases i with
        | ofNat n =>
          obtain ⟨⟨c, t, hct⟩, hdig⟩ := natChars_spec n
          have hc : c.isDigit = true := hdig c (by rw [hct]; simp)
          simp only [intChars] at hnum ⊢
          rw [hct, List.cons_append, parseVal_digit f c _ hc, ← List.cons_append, ← hct]
          exact hnum
        | negSucc m =>
          simp only [intChars] at hnum ⊢
          rw [List.cons_append, parseVal_minus, ← List.cons_append]
          exact hnum
      | jstr s =>
        simp only [stringifyChars, strChars, List.cons_append, List.append_assoc,
          List.nil_append]
        rw [parseVal_str, parseStrAux_escChars]
        simp
      | jarr xs =>
        have hsz : jsonSize (.jarr xs) = elemsSize xs + 1 := by simp [jsonSize]
        rw [hsz] at hN hfuel
        simp only [stringifyChars, List.cons_append, List.append_assoc, List.nil_append]
        rw [parseVal_arr]
        have hrec := (IH (elemsSize xs) (by omega)).2.1 xs f rest le_rfl (by omega)
        rw [hrec]
        simp
      | jobj kvs =>
        have hsz : jsonSize (.jobj kvs) = membersSize kvs + 1 := by simp [jsonSize]
        rw [hsz] at hN hfuel
        simp only [stringifyChars, List.cons_append, List.append_assoc, List.nil_append]
        rw [parseVal_obj]
        have hrec := (IH (membersSize kvs) (by omega)).2.2 kvs f rest le_rfl (by omega)
        rw [hrec]
        simp
    · intro xs fuel rest hN hfuel
      have hx1 : 1 ≤ elemsSize xs := elemsSize_pos xs
      obtain ⟨f, rfl⟩ : ∃ f, fuel = f + 1 := ⟨fuel - 1, by omega⟩
      cases xs with
      | nil =>
        simp only [elemsChars, List.nil_append]
        exact parseElems_close f rest
      | cons x xs2 =>
        obtain ⟨c, t, hct, hc1, _⟩ := stringifyChars_head x
        have hszx : 1 ≤ jsonSize x := jsonSize_pos x
        cases xs2 with
        | nil =>
          have hsz : elemsSize [x] = jsonSize x + 2 := by simp [elemsSize]
          rw [hsz] at hN hfuel
          simp only [elemsChars]
          have hne : ¬(stringifyChars x ++ ']' :: rest).head? = some ']' := by
            rw [hct]
            simp [hc1]
          rw [parseElems_step f _ hne]
          have hval : parseVal f (stringifyChars x ++ ']' :: rest)
              = some (x, ']' :: rest) := by
            refine (IH (jsonSize x) (by omega)).1 x f (']' :: rest) le_rfl (by omega) ?_
            intro r hr
            simp only [List.head?_cons, Option.some.injEq] at hr
            subst hr
            decide
          rw [hval]
          simp
        | cons y ys =>
          have hsz : elemsSize (x :: y :: ys) = jsonSize x + elemsSize (y :: ys) + 1 := by
            simp [elemsSize]
          have hsz2 : 1 ≤ elemsSize (y :: ys) := elemsSize_pos (y :: ys)
          rw [hsz] at hN hfuel
          simp only [elemsChars, List.cons_append, List.append_assoc]
          have hne : ¬(stringifyChars x
              ++ ',' :: (elemsChars (y :: ys) ++ ']' :: rest)).head? = some ']' := by
            rw [hct]
            simp [hc1]
          rw [parseElems_step f _ hne]
          have hval : parseVal f (stringifyChars x
              ++ ',' :: (elemsChars (y :: ys) ++ ']' :: rest))
              = some (x, ',' :: (elemsChars (y :: ys) ++ ']' :: rest)) := by
            refine (IH (jsonSize x) (by omega)).1 x f _ le_rfl (by omega) ?_
            intro r hr
            simp only [List.head?_cons, Option.some.injEq] at hr
            subst hr
            decide
          have hrec : parseElems f (elemsChars (y :: ys) ++ ']' :: rest)
              = some (y :: ys, rest) :=
            (IH (elemsSize (y :: ys)) (by omega)).2.1 (y :: ys) f rest le_rfl (by omega)
          rw [hval]
          simp [hrec]
    · intro kvs fuel rest hN hfuel
      have hk1 : 1 ≤ membersSize kvs := membersSize_pos kvs
      obtain ⟨f, rfl⟩ : ∃ f, fuel = f + 1 := ⟨fuel - 1, by omega⟩
      cases kvs with
      | nil =>
        simp only [membersChars, List.nil_append]
        exact parseMembers_close f rest
      | cons kv kvs2 =>
        obtain ⟨k, v⟩ := kv
        have hszv : 1 ≤ jsonSize v := jsonSize_pos v
        cases kvs2 with
        | nil =>
          have hsz : membersSize [(k, v)] = jsonSize v + 2 := by simp [membersSize]
          rw [hsz] at hN hfuel
          simp only [membersChars, strChars, List.cons_append, List.append_assoc,
            List.nil_append]
          have hne : ¬('"' :: (escChars k.data
              ++ '"' :: ':' :: (stringifyChars v ++ '}' :: rest))).head? = some '}' := by
            simp only [List.head?_cons, Option.some.injEq]
            decide
          rw [parseMembers_step f _ hne]
          rw [show ('"' : Char) :: ':' :: (stringifyChars v ++ '}' :: rest)
              = '"' :: (':' :: (stringifyChars v ++ '}' :: rest)) from rfl]
          rw [parseStrAux_escChars k.data [] (':' :: (stringifyChars v ++ '}' :: rest))]
          have hval : parseVal f (stringifyChars v ++ '}' :: rest)
              = some (v, '}' :: rest) := by
            refine (IH (jsonSize v) (by omega)).1 v f ('}' :: rest) le_rfl (by omega) ?_
            intro r hr
            simp only [List.head?_cons, Option.some.injEq] at hr
            subst hr
            decide
          simp [hval]
        | cons m kvs3 =>
          have hsz : membersSize ((k, v) :: m :: kvs3)
              = jsonSize v + membersSize (m :: kvs3) + 1 := by simp [membersSize]
          have hsz2 : 1 ≤ membersSize (m :: kvs3) := membersSize_pos (m :: kvs3)
          rw [hsz] at hN hfuel
          simp only [membersChars, strChars, List.cons_append, List.append_assoc,
            List.nil_append]
          have hne : ¬('"' :: (escChars k.data ++ '"' :: ':' :: (stringifyChars v
              ++ ',' :: (membersChars (m :: kvs3) ++ '}' :: rest)))).head?
              = some '}' := by
            simp only [List.head?_cons, Option.some.injEq]
            decide
          rw [parseMembers_step f _ hne]
          rw [show ('"' : Char) :: ':' :: (stringifyChars v
              ++ ',' :: (membersChars (m :: kvs3) ++ '}' :: rest))
              = '"' :: (':' :: (stringifyChars v
                ++ ',' :: (membersChars (m :: kvs3) ++ '}' :: rest))) from rfl]
          rw [parseStrAux_escChars k.data []
            (':' :: (stringifyChars v ++ ',' :: (membersChars (m :: kvs3) ++ '}' :: rest)))]
          have hval : parseVal f (stringifyChars v
              ++ ',' :: (membersChars (m :: kvs3) ++ '}' :: rest))
              = some (v, ',' :: (membersChars (m :: kvs3) ++ '}' :: rest)) := by
            refine (IH (jsonSize v) (by omega)).1 v f _ le_rfl (by omega) ?_
            intro r hr
            simp only [List.head?_cons, Option.some.injEq] at hr
            subst hr
            decide
          have hrec : parseMembers f (membersChars (m :: kvs3) ++ '}' :: rest)
              = some (m :: kvs3, rest) :=
            (IH (membersSize (m :: kvs3)) (by omega)).2.2 (m :: kvs3) f rest le_rfl
              (by omega)
          simp [hval, hrec]

end OpenRamp

namespace OpenRamp

theorem size_le_aux : ∀ N : Nat,
    (∀ v : Json, jsonSize v ≤ N → jsonSize v + 1 ≤ 2 * (stringifyChars v).length) ∧
    (∀ xs : List Json, elemsSize xs ≤ N →
      elemsSize xs ≤ 2 * (elemsChars xs).length + 2) ∧
    (∀ kvs : List (String × Json), membersSize kvs ≤ N →
      membersSize kvs ≤ 2 * (membersChars kvs).length + 2) := by
  intro N
  induction N using Nat.strong_induction_on with
  | _ N IH =>
    refine ⟨?_, ?_, ?_⟩
    · intro v hN
      cases v with
      | null => simp [stringifyChars, jsonSize]
      | jbool b => cases b <;> simp [stringifyChars, jsonSize]
      | jnum i =>
        cases i with
        | ofNat n =>
          obtain ⟨⟨c, t, hct⟩, _⟩ := natChars_spec n
          simp [stringifyChars, intChars, jsonSize, hct]
        | negSucc m =>
          simp [stringifyChars, intChars, jsonSize]
      | jstr s => simp [stringifyChars, strChars, jsonSize]
      | jarr xs =>
        have hsz : jsonSize (.jarr xs) = elemsSize xs + 1 := by simp [jsonSize]
        rw [hsz] at hN ⊢
        have h := (IH (elemsSize xs) (by omega)).2.1 xs le_rfl
        simp only [stringifyChars, List.length_cons, List.length_append,
          List.length_singleton]
        omega
      | jobj kvs =>
        have hsz : jsonSize (.jobj kvs) = membersSize kvs + 1 := by simp [jsonSize]
        rw [hsz] at hN ⊢
        have h := (IH (membersSize kvs) (by omega)).2.2 kvs le_rfl
        simp only [stringifyChars, List.length_cons, List.length_append,
          List.length_singleton]
        omega
    · intro xs hN
      cases xs with
      | nil => simp [elemsChars, elemsSize]
      | cons x xs2 =>
        have hszx : 1 ≤ jsonSize x := jsonSize_pos x
        cases xs2 with
        | nil =>
          have hsz : elemsSize [x] = jsonSize x + 2 := by simp [elemsSize]
          rw [hsz] at hN ⊢
          have h := (IH (jsonSize x) (by omega)).1 x le_rfl
          simp only [elemsChars]
          omega
        | cons y ys =>
          have hsz : elemsSize (x :: y :: ys)
              = jsonSize x + elemsSize (y :: ys) + 1 := by simp [elemsSize]
          have hsz2 : 1 ≤ elemsSize (y :: ys) := elemsSize_pos (y :: ys)
          rw [hsz] at hN ⊢
          have h1 := (IH (jsonSize x) (by omega)).1 x le_rfl
          have h2 := (IH (elemsSize (y :: ys)) (by omega)).2.1 (y :: ys) le_rfl
          simp only [elemsChars, List.length_append, List.length_cons]
          omega
    · intro kvs hN
      cases kvs with
      | nil => simp [membersChars, membersSize]
      | cons kv kvs2 =>
        obtain ⟨k, v⟩ := kv
        have hszv : 1 ≤ jsonSize v := jsonSize_pos v
        cases kvs2 with
        | nil =>
          have hsz : membersSize [(k, v)] = jsonSize v + 2 := by simp [membersSize]
          rw [hsz] at hN ⊢
          have h := (IH (jsonSize v) (by omega)).1 v le_rfl
          simp only [membersChars, List.length_append, List.length_cons]
          omega
        | cons m kvs3 =>
          have hsz : membersSize ((k, v) :: m :: kvs3)
              = jsonSize v + membersSize (m :: kvs3) + 1 := by simp [membersSize]
          have hsz2 : 1 ≤ membersSize (m :: kvs3) := membersSize_pos (m :: kvs3)
          rw [hsz] at hN ⊢
          have h1 := (IH (jsonSize v) (by omega)).1 v le_rfl
          have h2 := (IH (membersSize (m :: kvs3)) (by omega)).2.2 (m :: kvs3) le_rfl
          simp only [membersChars, List.length_append, List.length_cons]
          omega

/-- The roundtrip: parsing a stringified value returns the value. -/
theorem Json.parse_stringify (v : Json) : Json.parse (Json.stringify v) = some v := by
  have hsz := (size_le_aux (jsonSize v)).1 v le_rfl
  have h := (parse_stringify_aux (jsonSize v)).1 v
    (2 * (stringifyChars v).length + 2) [] le_rfl (by omega)
    (by intro r hr; simp at hr)
  rw [List.append_nil] at h
  show (match parseVal (2 * (stringifyChars v).length + 2) (stringifyChars v) with
    | some (v, []) => some v
    | _ => none) = some v
  rw [h]

/-- A stringified value is never the empty string. -/
theorem Json.stringify_ne_empty (v : Json) : ¬Json.stringify v = "" := by
  obtain ⟨c, t, hct, _, _⟩ := stringifyChars_head v
  intro h
  have hd : (Json.stringify v).data = ("" : String).data := by rw [h]
  simp only [Json.stringify, hct] at hd
  exact absurd hd (by simp)

end OpenRamp

namespace OpenRamp

/-! ## Browser storage wrapper
(embedded from `frontend/src/utils/storage.ts`; the browser's
localStorage is modelled as an explicit key/value list, latest binding
first) -/

/-- The localStorage contents. -/
abbrev LocalStorage := List (String × String)

/-- `localStorage.setItem`. -/
def setItem (ls : LocalStorage) (k v : String) : LocalStorage :=
  (k, v) :: ls

/-- `localStorage.getItem` (null modelled as `none`). -/
def getItem : LocalStorage → String → Option String
  | [], _ => none
  | (k2, v) :: rest, k => if k2 = k then some v else getItem rest k

/-- `localStorage.removeItem`. -/
def removeItem : LocalStorage → String → LocalStorage
  | [], _ => []
  | (k2, v) :: rest, k =>
    if k2 = k then removeItem rest k else (k2, v) :: removeItem rest k

/-- Embedded from storage.ts: the per-user key, prefixed with `user_`. -/
def userKey (username : String) : String :=
  "user_" ++ username

/-- Embedded from storage.ts (`saveUserData`): store the stringified
value under the user's key. -/
def saveUserData (ls : LocalStorage) (username : String) (data : Json) : LocalStorage :=
  setItem ls (userKey username) (Json.stringify data)

/-- Embedded from storage.ts (`getUserData`): read the user's key and
parse; a missing or empty entry yields null, and a `JSON.parse` failure
(an exception in the browser) is modelled as `none`. -/
def getUserData (ls : LocalStorage) (username : String) : Option Json :=
  match getItem ls (userKey username) with
  | none => none
  | some s => if s = "" then none else Json.parse s

/-- Embedded from storage.ts (`clearUserData`): remove the user's key. -/
def clearUserData (ls : LocalStorage) (username : String) : LocalStorage :=
  removeItem ls (userKey username)

theorem strDataAppend (a b : String) : (a ++ b).data = a.data ++ b.data := by
  cases a
  cases b
  rfl

theorem userKey_inj {u u' : String} (h : userKey u = userKey u') : u = u' := by
  have hd : (userKey u).data = (userKey u').data := congrArg String.data h
  simp only [userKey, strDataAppend] at hd
  have hdd := List.append_cancel_left hd
  cases u
  cases u'
  exact congrArg String.mk hdd

theorem getItem_removeItem : ∀ (ls : LocalStorage) (k : String),
    getItem (removeItem ls k) k = none := by
  intro ls k
  induction ls with
  | nil => rfl
  | cons p rest ih =>
    obtain ⟨k2, v⟩ := p
    simp only [removeItem]
    split_ifs with h
    · exact ih
    · simp only [getItem, if_neg h]
      exact ih

end OpenRamp

namespace OpenRamp

/-- C10: reading user data immediately after writing it for the same
username returns a value structurally equal to the one written; reading
for a username never written (empty store, or any store after only
writes to other usernames) returns null; and reading after
`clearUserData` returns null. -/
theorem c10_storage_roundtrip :
    (∀ (ls : LocalStorage) (u : String) (v : Json),
        getUserData (saveUserData ls u v) u = some v) ∧
    (∀ u : String, getUserData [] u = none) ∧
    (∀ (ls : LocalStorage) (u u' : String) (v : Json), ¬u = u' →
        getUserData (saveUserData ls u' v) u = getUserData ls u) ∧
    (∀ (ls : LocalStorage) (u : String),
        getUserData (clearUserData ls u) u = none) := by
  refine ⟨?_, ?_, ?_, ?_⟩
  · intro ls u v
    have hgi : getItem (setItem ls (userKey u) (Json.stringify v)) (userKey u)
        = some (Json.stringify v) := by
      simp [setItem, getItem]
    simp only [saveUserData, getUserData, hgi]
    rw [if_neg (Json.stringify_ne_empty v)]
    exact Json.parse_stringify v
  · intro u
    rfl
  · intro ls u u' v hne
    have hk : ¬userKey u' = userKey u := fun heq => hne (userKey_inj heq).symm
    have hgi : getItem (setItem ls (userKey u') (Json.stringify v)) (userKey u)
        = getItem ls (userKey u) := by
      simp [setItem, getItem, hk]
    simp only [saveUserData, getUserData, hgi]
  · intro ls u
    simp only [clearUserData, getUserData, getItem_removeItem]

/-- A concrete profile payload, shaped like the data the frontend stores. -/
def exampleProfileJson : Json :=
  .jobj [("skills", .jarr [.jstr "python", .jstr "django"]),
         ("preferences", .jarr [.jstr "bug_fix"]),
         ("experience", .jstr "beginner")]

/-- C10 witness: `c10_storage_roundtrip` applied to a concrete store,
username and profile value. -/
theorem c10_storage_roundtrip_witness :
    ¬("bob" : String) = "alice" ∧
      getUserData (saveUserData [] "alice" exampleProfileJson) "alice"
        = some exampleProfileJson ∧
      getUserData (saveUserData [] "alice" exampleProfileJson) "bob" = none ∧
      getUserData (clearUserData (saveUserData [] "alice" exampleProfileJson) "alice")
        "alice" = none :=
  have hne : ¬("bob" : String) = "alice" := by decide
  ⟨hne,
    c10_storage_roundtrip.1 [] "alice" exampleProfileJson,
    by
      rw [c10_storage_roundtrip.2.2.1 [] "bob" "alice" exampleProfileJson hne]
      exact c10_storage_roundtrip.2.1 "bob",
    c10_storage_roundtrip.2.2.2 _ "alice"⟩

end OpenRamp
